import Mathlib

/-!
Verification of the quiz-bot progress engine.

The repository has two variants of the same Telegram quiz bot:
`main.go` (reconciled mode: PostgreSQL store + `sync.Map` cache) and a
second, cache-only variant (no database; the `sync.Map` is the only
record of progress).  This file gives a shallow embedding of the data
model and of the functions the claims are about, and proves (or
refutes) each claim.

Modelling conventions:
* Go `map[int]bool` values are association lists `List (Int × Bool)`
  with Go map semantics (`mapLookup`, `mapInsert` replaces in place);
  iteration order only matters to the code through order-insensitive
  folds (counting), so a list is adequate.
* Go `int`/`int64` are `Int`; the only place overflow matters
  (`strconv.Atoi`) checks the int64 range explicitly.
* Database and network failures are an input of each operation
  (`fail : Bool`): `fail = true` means the `ExecContext`/`QueryContext`
  call returned an error (query error or context timeout).
* Fallible Go functions returning `(v, err)` become `Option v`
  (`none` = non-nil error) or a `Bool` success flag.
-/

namespace Bot

/-- Structure `Task` from `main.go` / the cache-only variant: id, prompt text,
correct answer, presented options. -/
structure Task where
  ID : Int
  Text : String
  Answer : String
  Options : List String
deriving DecidableEq

/-- A Go `map[int]bool` (one user's task-id → solved mapping). -/
abbrev ProgressMap := List (Int × Bool)

/-- Go map read `m[k]`: `some v` when present (`v, true := m[k]`),
`none` when absent. -/
def mapLookup : ProgressMap → Int → Option Bool
  | [], _ => none
  | (k, v) :: rest, key => if key = k then some v else mapLookup rest key

/-- Go map write `m[k] = v`: replaces the existing binding or appends. -/
def mapInsert : ProgressMap → Int → Bool → ProgressMap
  | [], k, v => [(k, v)]
  | (k1, v1) :: rest, k, v =>
      if k = k1 then (k, v) :: rest else (k1, v1) :: mapInsert rest k v

/-- The keys of a progress map are pairwise distinct (every map built
by Go map writes has this). -/
def NodupKeys (m : ProgressMap) : Prop := (m.map Prod.fst).Nodup

instance (m : ProgressMap) : Decidable (NodupKeys m) := by
  unfold NodupKeys; infer_instance

/-- Catalog `getTasks` from the source: the static five-task catalog. -/
def getTasks : List Task :=
  [ { ID := 1, Text := "Какой оператор используется для объявления переменной в Go?",
      Answer := "var", Options := ["let", "const", "var", "define"] },
    { ID := 2, Text := "Какой тип данных используется для целых чисел в Go?",
      Answer := "int", Options := ["integer", "float", "int", "number"] },
    { ID := 3, Text := "Какой тип данных используется для строк в Go?",
      Answer := "string", Options := ["char", "string", "text", "varchar"] },
    { ID := 4, Text := "Какая директива используется для импорта пакетов в Go?",
      Answer := "import", Options := ["include", "import", "use", "require"] },
    { ID := 5, Text := "Что выводит команда fmt.Println(1+1) в Go?",
      Answer := "2", Options := ["1", "2", "3", "Ошибка"] } ]

/-- The selection loop of `getNextTask`:
`for i := range tasks { if solved, exists := progress[tasks[i].ID]; !exists || !solved { return &tasks[i] } }`.
It walks the catalog in order and returns the first task whose id is
absent from the snapshot or present with `solved = false`. -/
def firstUnsolved : List Task → ProgressMap → Option Task
  | [], _ => none
  | t :: rest, p =>
      if mapLookup p t.ID = some true then firstUnsolved rest p else some t

/-- The pure part of `getNextTask` (the spec's
`nextTask(catalog, snapshot)`), applied to the static catalog. -/
def nextTask (p : ProgressMap) : Option Task := firstUnsolved getTasks p

/-- Lookup `findTask` from the source: first catalog task with the given id. -/
def findTask (taskID : Int) : Option Task :=
  getTasks.find? (fun t => t.ID == taskID)

/-- The answer check of `handleCallbackQuery`:
`answerCorrect := parts[1] == task.Answer` — exact Go string equality
(the spec's `evaluate(task, submittedAnswer)`). -/
def evaluate (task : Task) (submittedAnswer : String) : Bool :=
  submittedAnswer == task.Answer

/-! ## Reconciled mode (`main.go`): store + cache state machine

The mutable state of the process is the `sync.Map` cache
(`progressCache`) plus the `user_progress` table.  Maps handed out by
`getUserProgress` are never mutated in place by `main.go` (shown
separately on the heap model below), so a value-level state is a
faithful model. -/

/-- The `user_progress` table, per user, plus the `progressCache`. -/
structure RState where
  db : Int → ProgressMap
  cache : Int → Option ProgressMap

/-- The SQL upsert
`INSERT ... ON CONFLICT (user_id, task_id) DO UPDATE SET solved = $3`
applied to the table. -/
def dbUpsert (db : Int → ProgressMap) (userID taskID : Int) (solved : Bool) :
    Int → ProgressMap :=
  fun v => if v = userID then mapInsert (db userID) taskID solved else db v

/-- Function `getUserProgress` from `main.go`: serve from cache on hit; on miss,
query the table (`fail = true` models a query/scan error or timeout —
then `(nil, err)` is returned and the cache is untouched), build the
map from the rows, cache it and return it. -/
def getUserProgress (s : RState) (userID : Int) (fail : Bool) :
    Option ProgressMap × RState :=
  match s.cache userID with
  | some cached => (some cached, s)
  | none =>
      if fail then (none, s)
      else
        let progress := s.db userID
        (some progress,
          { s with cache := fun v => if v = userID then some progress else s.cache v })

/-- Function `saveUserProgress` from `main.go`: run the upsert (`fail = true`
models `ExecContext` returning an error — the table is unchanged),
then `progressCache.Delete(userID)` unconditionally, and return `err`
(`true` = success, i.e. `err == nil`). -/
def saveUserProgress (s : RState) (userID taskID : Int) (solved fail : Bool) :
    Bool × RState :=
  let db1 := if fail then s.db else dbUpsert s.db userID taskID solved
  (!fail, { db := db1, cache := fun v => if v = userID then none else s.cache v })

/-- Function `getNextTask` from `main.go`: on a progress-read error it logs and
returns `nil`; otherwise the first unsolved catalog task. -/
def getNextTask (s : RState) (userID : Int) (fail : Bool) :
    Option Task × RState :=
  match getUserProgress s userID fail with
  | (none, s1) => (none, s1)
  | (some progress, s1) => (firstUnsolved getTasks progress, s1)

/-- An outbound transport effect of a handler. -/
inductive Outbound where
  | text : Int → String → Outbound
  | taskPrompt : Int → Task → Outbound
deriving DecidableEq

/-- Handler `handleTaskCommand` from `main.go`: `nil` from `getNextTask` sends
the completion congratulation, otherwise the task is presented. -/
def handleTaskCommand (s : RState) (chatID : Int) (fail : Bool) :
    Outbound × RState :=
  match getNextTask s chatID fail with
  | (none, s1) => (Outbound.text chatID "Поздравляем! Вы решили все задачи 🎉", s1)
  | (some task, s1) => (Outbound.taskPrompt chatID task, s1)

/-- The state-relevant events a process run performs in reconciled
mode: a progress read (`/task`, `/progress` or the post-answer
redelivery all go through `getUserProgress`) and a successful-answer
write (`handleCallbackQuery` only ever calls
`saveUserProgress(userID, task.ID, true)`). Each carries the
environment's choice of store failure. -/
inductive Ev where
  | read : Int → Bool → Ev
  | solve : Int → Int → Bool → Ev

/-- Effect of one event on the store-plus-cache state. -/
def step (s : RState) : Ev → RState
  | Ev.read u fl => (getUserProgress s u fl).2
  | Ev.solve u t fl => (saveUserProgress s u t true fl).2

/-- Run a list of events. -/
def run (s : RState) : List Ev → RState
  | [] => s
  | e :: es => run (step s e) es

/-- Process start: the cache is empty, the table holds whatever
earlier process lifetimes committed. -/
def initState (db0 : Int → ProgressMap) : RState :=
  { db := db0, cache := fun _ => none }

/-- Cache-store coherence: every populated cache entry equals the
current table contents for that user. -/
def Coherent (s : RState) : Prop :=
  ∀ u m, s.cache u = some m → m = s.db u

/-! ## Cache-only variant: heap model

The cache-only variant's `getUserProgress` hands out the cached map
object itself and its `saveUserProgress` mutates that object in place,
so Go map reference semantics is visible.  A reference is an index
into an explicit heap of map objects. -/

namespace CacheOnly

/-- Process state of the cache-only variant: the heap of `map[int]bool`
objects, an allocation counter, and the `sync.Map` holding a reference
per user. -/
structure MemState where
  heap : Nat → ProgressMap
  nextRef : Nat
  cacheRef : Int → Option Nat

/-- Process start: nothing allocated, cache empty. -/
def memInit : MemState :=
  { heap := fun _ => [], nextRef := 0, cacheRef := fun _ => none }

/-- Function `getUserProgress` of the cache-only variant: on a cache hit return
the cached map object itself; on a miss allocate a fresh empty map
(`make(map[int]bool)`), store it in the cache and return it.  The
returned error is always `nil`, so only the reference is returned. -/
def getUserProgress (s : MemState) (userID : Int) : Nat × MemState :=
  match s.cacheRef userID with
  | some r => (r, s)
  | none =>
      let r := s.nextRef
      (r, { heap := fun r2 => if r2 = r then [] else s.heap r2,
            nextRef := r + 1,
            cacheRef := fun v => if v = userID then some r else s.cacheRef v })

/-- Function `saveUserProgress` of the cache-only variant: fetch the current
progress object (`progress, _ := getUserProgress(userID)`), mutate it
in place (`progress[taskID] = solved`), re-store the same object in
the cache, and return `nil`. -/
def saveUserProgress (s : MemState) (userID taskID : Int) (solved : Bool) : MemState :=
  let g := getUserProgress s userID
  let r := g.1
  let s1 := g.2
  let s2 := { s1 with
    heap := fun r2 => if r2 = r then mapInsert (s1.heap r) taskID solved else s1.heap r2 }
  { s2 with cacheRef := fun v => if v = userID then some r else s2.cacheRef v }

/-- The state-relevant events a process run performs in the cache-only
variant: a progress read (`/task`, `/progress` or the post-answer
redelivery) and a successful-answer write (`handleCallbackQuery` only
ever calls `saveUserProgress(userID, task.ID, true)`).  Nothing can
fail: there is no store. -/
inductive MEv where
  | read : Int → MEv
  | solve : Int → Int → MEv

/-- Effect of one event on the cache-only state. -/
def stepMem (c : MemState) : MEv → MemState
  | MEv.read u => (getUserProgress c u).2
  | MEv.solve u t => saveUserProgress c u t true

/-- Run a list of events. -/
def runMem (c : MemState) : List MEv → MemState
  | [] => c
  | e :: es => runMem (stepMem c e) es

/-- Every cached reference was allocated: it lies below the allocation
counter, so a fresh allocation never clobbers a cached map object. -/
def FreshRefs (c : MemState) : Prop :=
  ∀ u r, c.cacheRef u = some r → r < c.nextRef

/-- User `u`'s cached map object has task `t` solved. -/
def SolvedRef (c : MemState) (u t : Int) : Prop :=
  ∃ r, c.cacheRef u = some r ∧ mapLookup (c.heap r) t = some true

end CacheOnly

/-! ## Reconciled mode (`main.go`): heap model

Same functions as `RState` above but with the map objects explicit, to
settle whether a snapshot handed out by `getUserProgress` can be
mutated by a later `saveUserProgress`. -/

namespace RefModel

/-- Process state of `main.go` with map objects explicit: table, heap of
map objects, allocation counter, cache of references. -/
structure DRefState where
  db : Int → ProgressMap
  heap : Nat → ProgressMap
  nextRef : Nat
  cacheRef : Int → Option Nat

/-- Function `getUserProgress` from `main.go` on the heap model: a cache hit
returns the cached reference; a miss (store healthy) builds a fresh
map object from the table rows, caches the reference and returns it. -/
def getUserProgress (s : DRefState) (userID : Int) (fail : Bool) :
    Option Nat × DRefState :=
  match s.cacheRef userID with
  | some r => (some r, s)
  | none =>
      if fail then (none, s)
      else
        let r := s.nextRef
        (some r,
          { s with heap := fun r2 => if r2 = r then s.db userID else s.heap r2,
                   nextRef := r + 1,
                   cacheRef := fun v => if v = userID then some r else s.cacheRef v })

/-- Function `saveUserProgress` from `main.go` on the heap model: upsert into
the table, then `progressCache.Delete(userID)`.  No map object is
written to: the heap is untouched. -/
def saveUserProgress (s : DRefState) (userID taskID : Int) (solved fail : Bool) :
    Bool × DRefState :=
  let db1 := if fail then s.db else dbUpsert s.db userID taskID solved
  (!fail,
    { s with db := db1, cacheRef := fun v => if v = userID then none else s.cacheRef v })

end RefModel

/-! ## Callback token: `fmt.Sprintf("%d:%s", task.ID, option)` and its
parse in `handleCallbackQuery` -/

/-- Decimal digit `d` (`d < 10`) as a character, `'0'` = code 48. -/
def decDigitChar (d : Nat) : Char := Char.ofNat (48 + d)

/-- Little-endian decimal digits of `n`, by repeated division; the
first argument is fuel (`n` itself suffices since `n / 10 < n`). -/
def natDigitsAux : Nat → Nat → List Nat
  | 0, _ => []
  | _ + 1, 0 => []
  | fuel + 1, n => (n % 10) :: natDigitsAux fuel (n / 10)

/-- Decimal rendering of a natural number, most significant digit
first; `0` renders as `"0"`. -/
def renderNat (n : Nat) : List Char :=
  (if n = 0 then [0] else (natDigitsAux n n).reverse).map decDigitChar

/-- Go `%d` of an `int64`: optional minus sign, then the decimal
digits of the magnitude. -/
def renderInt (n : Int) : List Char :=
  if n < 0 then '-' :: renderNat n.natAbs else renderNat n.toNat

/-- The callback data `sendTask` attaches to each option button:
`fmt.Sprintf("%d:%s", task.ID, option)`. -/
def encodeCallback (taskID : Int) (option : String) : String :=
  String.mk (renderInt taskID ++ ':' :: option.data)

/-- Split a character list at the first `':'`:
`some (before, after)` when a `':'` occurs, `none` otherwise. -/
def splitFirstColon : List Char → Option (List Char × List Char)
  | [] => none
  | c :: cs =>
      if c = ':' then some ([], cs)
      else (splitFirstColon cs).map (fun p => (c :: p.1, p.2))

/-- Model of `strings.SplitN(data, ":", 2)`: at most two pieces, split at the
first `':'`. -/
def splitN2 (data : String) : List String :=
  match splitFirstColon data.data with
  | none => [data]
  | some (a, b) => [String.mk a, String.mk b]

/-- Numeric value of a decimal digit character, `none` otherwise. -/
def digitVal (c : Char) : Option Nat :=
  if 48 ≤ c.toNat ∧ c.toNat ≤ 57 then some (c.toNat - 48) else none

/-- Accumulating decimal parse of a digit string (most significant
digit first); fails on any non-digit. -/
def parseDigitsAux : List Char → Nat → Option Nat
  | [], acc => some acc
  | c :: cs, acc =>
      match digitVal c with
      | none => none
      | some d => parseDigitsAux cs (acc * 10 + d)

/-- Decimal parse; the empty string is an error. -/
def parseDigits : List Char → Option Nat
  | [] => none
  | cs => parseDigitsAux cs 0

/-- Model of `strconv.Atoi` on the character list: optional sign, decimal
digits, int64 range check (`ErrRange`, like `ErrSyntax`, makes
`handleCallbackQuery` drop the event, so both are `none`). -/
def atoiChars : List Char → Option Int
  | [] => none
  | c :: cs =>
      if c = '-' then
        (parseDigits cs).bind
          (fun v => if (v : Int) ≤ 2 ^ 63 then some (-(v : Int)) else none)
      else if c = '+' then
        (parseDigits cs).bind
          (fun v => if (v : Int) ≤ 2 ^ 63 - 1 then some ((v : Int)) else none)
      else
        (parseDigits (c :: cs)).bind
          (fun v => if (v : Int) ≤ 2 ^ 63 - 1 then some ((v : Int)) else none)

/-- Model of `strconv.Atoi` on a string. -/
def atoi (s : String) : Option Int := atoiChars s.data

/-- The token-parsing prefix of `handleCallbackQuery`:
`parts := strings.SplitN(query.Data, ":", 2)`, drop unless
`len(parts) == 2`, `taskID, err := strconv.Atoi(parts[0])`, drop on
error; result is the task id and the selected option text. -/
def parseCallback (data : String) : Option (Int × String) :=
  match splitN2 data with
  | [a, b] =>
      match atoi a with
      | none => none
      | some taskID => some (taskID, b)
  | _ => none

/-! ## `showProgress` and the float64 percentage

`showProgress` computes `float64(solved)/float64(total)*100` and
renders it with `%.1f`.  IEEE-754 binary64 arithmetic is modelled
exactly on rationals: `rnd` rounds a rational to the nearest binary64
value (round to nearest, ties to even), which is exact on the normal
range used here (no overflow/subnormals arise: inputs are small
integer quotients). -/

/-- A rational as a reduced fraction with positive denominator, kept
in kernel-computable form (`Int.gcd` reduces in the kernel, `Rat`
multiplication does not). -/
structure DRat where
  num : Int
  den : Int
deriving DecidableEq

/-- Normalize a fraction: positive denominator, divided by the gcd. -/
def dnorm (n d : Int) : DRat :=
  let n1 := if d < 0 then -n else n
  let d1 := if d < 0 then -d else d
  let g : Int := (Int.gcd n1 d1 : Int)
  if g = 0 then { num := 0, den := 1 } else { num := n1 / g, den := d1 / g }

/-- Multiplication. -/
def dmul (a b : DRat) : DRat := dnorm (a.num * b.num) (a.den * b.den)

/-- Division. -/
def ddiv (a b : DRat) : DRat := dnorm (a.num * b.den) (a.den * b.num)

/-- Power `2 ^ e` for an integer exponent. -/
def dpow2 (e : Int) : DRat :=
  if 0 ≤ e then { num := 2 ^ e.toNat, den := 1 } else { num := 1, den := 2 ^ (-e).toNat }

/-- Round to the nearest integer, ties to even. -/
def halfEvenInt (q : DRat) : Int :=
  let f := Int.fdiv q.num q.den
  let r := q.num - f * q.den
  if 2 * r < q.den then f
  else if q.den < 2 * r then f + 1
  else if f % 2 = 0 then f else f + 1

/-- Fuel-driven floor of `log2` on naturals (`0` for `n ≤ 1`). -/
def log2Fuel : Nat → Nat → Nat
  | 0, _ => 0
  | fuel + 1, n => if n ≤ 1 then 0 else log2Fuel fuel (n / 2) + 1

/-- Floor of `log2 n`. -/
def nlog2 (n : Nat) : Nat := log2Fuel n n

/-- Ceiling of `log2 n` (`0` for `n ≤ 1`). -/
def nclog2 (n : Nat) : Nat := if n ≤ 1 then 0 else nlog2 (n - 1) + 1

/-- Floor of `log2` of a positive fraction. -/
def dlog2 (a : DRat) : Int :=
  if a.den ≤ a.num then (nlog2 (Int.fdiv a.num a.den).toNat : Int)
  else -(nclog2 ((a.den + a.num - 1) / a.num).toNat : Int)

/-- Round a rational to the nearest IEEE-754 binary64 value (round to
nearest, ties to even), for values in the normal finite range. -/
def rnd (q : DRat) : DRat :=
  if q.num = 0 then { num := 0, den := 1 }
  else
    let neg := q.num < 0
    let a : DRat := if neg then { num := -q.num, den := q.den } else q
    let e := dlog2 a
    let m := halfEvenInt (dmul a (dpow2 (52 - e)))
    let v := dmul { num := m, den := 1 } (dpow2 (e - 52))
    if neg then { num := -v.num, den := v.den } else v

/-- Go `float64(n)` for a natural number. -/
def f64ofNat (n : Nat) : DRat := rnd { num := (n : Int), den := 1 }

/-- The percentage `float64(solved)/float64(total)*100` computed in
binary64, as in `showProgress`. -/
def percentOf (solved total : Nat) : DRat :=
  rnd (dmul (rnd (ddiv (f64ofNat solved) (f64ofNat total))) (f64ofNat 100))

/-- Rendering `%.1f` for the nonnegative binary64 values used here: the exact
value rounded to one decimal place (ties to even), rendered with one
digit after the point. -/
def fmt1f (q : DRat) : String :=
  let t := halfEvenInt (dmul q { num := 10, den := 1 })
  toString (t / 10) ++ "." ++ toString (t % 10)

/-- The counting loop of `showProgress`:
`for _, v := range progress { if v { solved++ } }`. -/
def solvedCount (p : ProgressMap) : Nat :=
  p.foldl (fun acc kv => if kv.2 then acc + 1 else acc) 0

/-- The message `showProgress` sends on a successful progress read:
`fmt.Sprintf("Ваш прогресс: 📊\n\nРешено задач: %d/%d\nПрогресс: %.1f%%", solved, total, ...)`. -/
def showProgressText (p : ProgressMap) : String :=
  "Ваш прогресс: 📊\n\nРешено задач: " ++ toString (solvedCount p) ++ "/"
    ++ toString getTasks.length ++ "\nПрогресс: "
    ++ fmt1f (percentOf (solvedCount p) getTasks.length) ++ "%"

/-- Value of a `DRat` in `ℚ`, to state exactness over the real
rationals. -/
def toRat (a : DRat) : ℚ := (a.num : ℚ) / (a.den : ℚ)

/-- Value of a little-endian decimal digit list (proof helper for the
decimal round-trip). -/
def digitsVal : List Nat → Nat
  | [] => 0
  | d :: rest => d + 10 * digitsVal rest

/-! ### Basic lemmas -/

theorem mapLookup_mapInsert (m : ProgressMap) (k : Int) (v : Bool) (key : Int) :
    mapLookup (mapInsert m k v) key = if key = k then some v else mapLookup m key := by
  induction m with
  | nil => simp [mapInsert, mapLookup]
  | cons kv rest ih =>
      obtain ⟨k1, v1⟩ := kv
      by_cases hk : k = k1
      · subst hk
        by_cases hkey : key = k <;> simp [mapInsert, mapLookup, hkey]
      · by_cases hkey : key = k1
        · subst hkey
          simp [mapInsert, mapLookup, hk, Ne.symm hk]
        · simp [mapInsert, mapLookup, hk, hkey, ih]

theorem keys_mapInsert (m : ProgressMap) (k : Int) (v : Bool) :
    ((mapInsert m k v).map Prod.fst) =
      if k ∈ m.map Prod.fst then m.map Prod.fst else m.map Prod.fst ++ [k] := by
  induction m with
  | nil => simp [mapInsert]
  | cons kv rest ih =>
      obtain ⟨k1, v1⟩ := kv
      by_cases hk : k = k1
      · subst hk; simp [mapInsert]
      · have hcond : (k ∈ ((k1, v1) :: rest).map Prod.fst) ↔ k ∈ rest.map Prod.fst := by
          simp [hk]
        by_cases hmem : k ∈ rest.map Prod.fst
        · rw [if_pos (hcond.mpr hmem)]
          simp only [mapInsert, if_neg hk, List.map_cons, ih, if_pos hmem]
        · rw [if_neg (fun hc => hmem (hcond.mp hc))]
          simp only [mapInsert, if_neg hk, List.map_cons, ih, if_neg hmem,
            List.cons_append]

theorem nodupKeys_mapInsert (m : ProgressMap) (k : Int) (v : Bool)
    (h : NodupKeys m) : NodupKeys (mapInsert m k v) := by
  unfold NodupKeys at h ⊢
  rw [keys_mapInsert]
  by_cases hmem : k ∈ m.map Prod.fst
  · simpa [hmem] using h
  · simpa [hmem, List.nodup_append] using h

theorem coherent_initState (db0 : Int → ProgressMap) : Coherent (initState db0) := by
  intro u m h
  simp [initState] at h

theorem coherent_step (s : RState) (e : Ev) (h : Coherent s) : Coherent (step s e) := by
  cases e with
  | read u fl =>
      intro u1 m hm
      cases hc : s.cache u with
      | some cached =>
          simp only [step, getUserProgress, hc] at hm ⊢
          exact h u1 m hm
      | none =>
          cases fl with
          | true =>
              simp only [step, getUserProgress, hc, if_pos] at hm ⊢
              exact h u1 m hm
          | false =>
              simp only [step, getUserProgress, hc, Bool.false_eq_true, if_false] at hm ⊢
              by_cases hu : u1 = u
              · subst hu
                simp only [if_pos rfl] at hm
                exact (Option.some.injEq _ _ ▸ hm).symm
              · simp only [if_neg hu] at hm
                exact h u1 m hm
  | solve u t fl =>
      intro u1 m hm
      by_cases hu : u1 = u
      · subst hu
        simp only [step, saveUserProgress, if_pos rfl] at hm
        exact absurd hm (by simp)
      · simp only [step, saveUserProgress, if_neg hu] at hm ⊢
        cases fl with
        | true => simpa using h u1 m hm
        | false =>
            have h1 := h u1 m hm
            simpa [dbUpsert, hu] using h1

theorem coherent_run (s : RState) (es : List Ev) (h : Coherent s) :
    Coherent (run s es) := by
  induction es generalizing s with
  | nil => exact h
  | cons e es ih => exact ih (step s e) (coherent_step s e h)

theorem mapInsert_mapInsert (m : ProgressMap) (k : Int) (v w : Bool) :
    mapInsert (mapInsert m k w) k v = mapInsert m k v := by
  induction m with
  | nil => simp [mapInsert]
  | cons kv rest ih =>
      obtain ⟨k1, v1⟩ := kv
      by_cases hk : k = k1
      · subst hk; simp [mapInsert]
      · simp [mapInsert, hk, ih]

/-! ### Dispatch-engine lemmas -/

theorem firstUnsolved_eq_none (l : List Task) (p : ProgressMap) :
    firstUnsolved l p = none ↔ ∀ t ∈ l, mapLookup p t.ID = some true := by
  induction l with
  | nil => simp [firstUnsolved]
  | cons a l ih =>
      by_cases ha : mapLookup p a.ID = some true
      · simp [firstUnsolved, ha, ih]
      · simp only [firstUnsolved, if_neg ha]
        constructor
        · intro h; exact absurd h (by simp)
        · intro h; exact absurd (h a (by simp)) ha

theorem firstUnsolved_eq_some (l : List Task) (p : ProgressMap) (t : Task) :
    firstUnsolved l p = some t ↔
      ∃ l1 l2, l = l1 ++ t :: l2 ∧ (∀ a ∈ l1, mapLookup p a.ID = some true) ∧
        mapLookup p t.ID ≠ some true := by
  induction l with
  | nil =>
      simp only [firstUnsolved]
      constructor
      · intro h; exact absurd h (by simp)
      · rintro ⟨l1, l2, hsplit, -, -⟩
        exact absurd hsplit.symm (by simp)
  | cons a l ih =>
      by_cases ha : mapLookup p a.ID = some true
      · rw [show firstUnsolved (a :: l) p = firstUnsolved l p from by
          simp [firstUnsolved, ha], ih]
        constructor
        · rintro ⟨l1, l2, hsplit, hsolved, hunsolved⟩
          exact ⟨a :: l1, l2, by simp [hsplit], by
            intro x hx
            rcases List.mem_cons.mp hx with rfl | hx1
            · exact ha
            · exact hsolved x hx1, hunsolved⟩
        · rintro ⟨l1, l2, hsplit, hsolved, hunsolved⟩
          cases l1 with
          | nil =>
              simp only [List.nil_append, List.cons.injEq] at hsplit
              exact absurd (hsplit.1 ▸ ha) hunsolved
          | cons b l1 =>
              simp only [List.cons_append, List.cons.injEq] at hsplit
              exact ⟨l1, l2, hsplit.2, fun x hx => hsolved x (by simp [hx]), hunsolved⟩
      · rw [show firstUnsolved (a :: l) p = some a from by simp [firstUnsolved, ha]]
        constructor
        · intro h
          obtain rfl : a = t := Option.some.inj h
          exact ⟨[], l, rfl, by simp, ha⟩
        · rintro ⟨l1, l2, hsplit, hsolved, hunsolved⟩
          cases l1 with
          | nil =>
              simp only [List.nil_append, List.cons.injEq] at hsplit
              rw [hsplit.1]
          | cons b l1 =>
              simp only [List.cons_append, List.cons.injEq] at hsplit
              exact absurd (hsplit.1 ▸ hsolved b (by simp)) ha

theorem firstUnsolved_mapInsert_notmem (l : List Task) (p : ProgressMap) (i : Int)
    (b : Bool) (h : ∀ t ∈ l, t.ID ≠ i) :
    firstUnsolved l (mapInsert p i b) = firstUnsolved l p := by
  induction l with
  | nil => rfl
  | cons a l ih =>
      have ha : a.ID ≠ i := h a (by simp)
      have hlook : mapLookup (mapInsert p i b) a.ID = mapLookup p a.ID := by
        rw [mapLookup_mapInsert, if_neg ha]
      by_cases hla : mapLookup p a.ID = some true
      · simp only [firstUnsolved, hlook, if_pos hla]
        exact ih (fun x hx => h x (by simp [hx]))
      · simp only [firstUnsolved, hlook, if_neg hla]

/-! ### Claim C3 -/

/-- C3: for every snapshot, the selection loop of `getNextTask` returns
the first task in the catalog's fixed authoring order whose id is
absent from the snapshot or present with `solved = false` (a split of
the catalog with an all-solved prefix); when every catalog task is
solved it returns none; and progress entries whose task ids are not in
the catalog do not affect the selection. -/
theorem C3_next_task_selection :
    (∀ p t, nextTask p = some t ↔
        ∃ l1 l2, getTasks = l1 ++ t :: l2 ∧
          (∀ a ∈ l1, mapLookup p a.ID = some true) ∧
          mapLookup p t.ID ≠ some true) ∧
    (∀ p, nextTask p = none ↔ ∀ t ∈ getTasks, mapLookup p t.ID = some true) ∧
    (∀ p i b, (∀ t ∈ getTasks, t.ID ≠ i) →
        nextTask (mapInsert p i b) = nextTask p) := by
  refine ⟨fun p t => firstUnsolved_eq_some getTasks p t,
    fun p => firstUnsolved_eq_none getTasks p, fun p i b h => ?_⟩
  exact firstUnsolved_mapInsert_notmem getTasks p i b h

/-- Witness for C3 at a concrete input: an entry for the non-catalog
task id 99 does not change the selection. -/
theorem C3_next_task_selection_witness :
    nextTask (mapInsert [] 99 true) = nextTask [] :=
  C3_next_task_selection.2.2 [] 99 true (by decide)

/-! ### Claim C5 -/

/-- C5: an answer evaluates correct iff it is exactly string-equal to
the task's correct answer — case-sensitive and without trimming, so
for a task whose answer is `"int"`, both `"Int"` and `" int"` evaluate
incorrect while `"int"` evaluates correct. -/
theorem C5_strict_evaluation :
    (∀ t a, evaluate t a = true ↔ a = t.Answer) ∧
    (∀ t, t.Answer = "int" →
      evaluate t "Int" = false ∧ evaluate t " int" = false ∧
        evaluate t "int" = true) := by
  constructor
  · intro t a
    unfold evaluate
    exact beq_iff_eq
  · intro t h
    unfold evaluate
    rw [h]
    exact ⟨by decide, by decide, by decide⟩

/-- Witness for C5 on the catalog's task 2 (`Answer = "int"`). -/
theorem C5_strict_evaluation_witness :
    evaluate (Task.mk 2 "Какой тип данных используется для целых чисел в Go?"
      "int" ["integer", "float", "int", "number"]) "Int" = false :=
  (C5_strict_evaluation.2 _ rfl).1

/-! ### Claim C1 -/

/-- C1: reconciled mode: when the durable write of `saveUserProgress`
for user `u`, task `t` fails and `t` was not durably solved before,
a subsequent `getUserProgress u` does not report `t` as solved — the
cache never reflects the unconfirmed change. -/
theorem C1_failed_write_not_reported_solved (s : RState) (u t : Int)
    (hnot : mapLookup (s.db u) t ≠ some true) (fl : Bool) (m : ProgressMap)
    (hread : (getUserProgress (saveUserProgress s u t true true).2 u fl).1 = some m) :
    mapLookup m t ≠ some true := by
  have hc : (saveUserProgress s u t true true).2.cache u = none := by
    simp [saveUserProgress]
  cases fl with
  | true => simp [getUserProgress, hc] at hread
  | false =>
      simp only [getUserProgress, hc, Bool.false_eq_true, if_false] at hread
      have hm : (saveUserProgress s u t true true).2.db u = m := Option.some.inj hread
      have hdb : (saveUserProgress s u t true true).2.db = s.db := rfl
      rw [← hm, hdb]
      exact hnot

/-- Witness for C1: user 7 with only task 2 durably solved; the write
for task 1 fails; the subsequent read reports task 1 unsolved. -/
theorem C1_failed_write_not_reported_solved_witness :
    mapLookup [(2, true)] 1 ≠ some true :=
  C1_failed_write_not_reported_solved (initState fun _ => [(2, true)]) 7 1 (by decide)
    false [(2, true)] (by decide)

/-! ### Claim C2 -/

theorem getUserProgress_result (s : RState) (u : Int) (fl : Bool) (m : ProgressMap)
    (hcoh : Coherent s) (h : (getUserProgress s u fl).1 = some m) : m = s.db u := by
  cases hc : s.cache u with
  | some cached =>
      simp only [getUserProgress, hc] at h
      have := Option.some.inj h
      rw [← this]
      exact hcoh u cached hc
  | none =>
      cases fl with
      | true => simp [getUserProgress, hc] at h
      | false =>
          simp only [getUserProgress, hc, Bool.false_eq_true, if_false] at h
          exact (Option.some.inj h).symm

theorem step_read_db (s : RState) (u1 : Int) (fl : Bool) :
    (step s (Ev.read u1 fl)).db = s.db := by
  cases hc : s.cache u1 <;> cases fl <;> simp [step, getUserProgress, hc]

theorem dbLookup_mono_step (s : RState) (e : Ev) (u t : Int)
    (h : mapLookup (s.db u) t = some true) :
    mapLookup ((step s e).db u) t = some true := by
  cases e with
  | read u1 fl => rw [step_read_db]; exact h
  | solve u1 t1 fl =>
      cases fl with
      | true => simpa [step, saveUserProgress] using h
      | false =>
          by_cases hu : u = u1
          · subst hu
            simp only [step, saveUserProgress, Bool.false_eq_true, if_false,
              dbUpsert, eq_self_iff_true, if_true]
            rw [mapLookup_mapInsert]
            by_cases ht : t = t1 <;> simp [ht, h]
          · simp only [step, saveUserProgress, Bool.false_eq_true, if_false, dbUpsert]
            simpa [hu] using h

theorem dbLookup_mono_run (s : RState) (es : List Ev) (u t : Int)
    (h : mapLookup (s.db u) t = some true) :
    mapLookup ((run s es).db u) t = some true := by
  induction es generalizing s with
  | nil => exact h
  | cons e es ih => exact ih (step s e) (dbLookup_mono_step s e u t h)

theorem freshRefs_memInit : CacheOnly.FreshRefs CacheOnly.memInit := by
  intro u r h
  simp [CacheOnly.memInit] at h

theorem freshRefs_getUserProgress (c : CacheOnly.MemState) (u1 : Int)
    (h : CacheOnly.FreshRefs c) :
    CacheOnly.FreshRefs (CacheOnly.getUserProgress c u1).2 := by
  cases hcu : c.cacheRef u1 with
  | some r1 =>
      simp only [CacheOnly.getUserProgress, hcu]
      exact h
  | none =>
      intro u r hr
      simp only [CacheOnly.getUserProgress, hcu] at hr ⊢
      by_cases hu : u = u1
      · rw [if_pos hu] at hr
        have := Option.some.inj hr
        omega
      · rw [if_neg hu] at hr
        have := h u r hr
        omega

theorem cacheOnly_get_cacheRef (c : CacheOnly.MemState) (u1 : Int) :
    (CacheOnly.getUserProgress c u1).2.cacheRef u1
      = some (CacheOnly.getUserProgress c u1).1 := by
  cases hcu : c.cacheRef u1 <;> simp [CacheOnly.getUserProgress, hcu]

theorem freshRefs_step (c : CacheOnly.MemState) (e : CacheOnly.MEv)
    (h : CacheOnly.FreshRefs c) : CacheOnly.FreshRefs (CacheOnly.stepMem c e) := by
  cases e with
  | read u1 => exact freshRefs_getUserProgress c u1 h
  | solve u1 t1 =>
      intro u r hr
      have hg : CacheOnly.FreshRefs (CacheOnly.getUserProgress c u1).2 :=
        freshRefs_getUserProgress c u1 h
      have hg1 : (CacheOnly.getUserProgress c u1).2.cacheRef u1
          = some (CacheOnly.getUserProgress c u1).1 := cacheOnly_get_cacheRef c u1
      simp only [CacheOnly.stepMem, CacheOnly.saveUserProgress] at hr ⊢
      by_cases hu : u = u1
      · rw [if_pos hu] at hr
        have := Option.some.inj hr
        subst this
        exact hg u1 _ hg1
      · rw [if_neg hu] at hr
        exact hg u r hr

theorem freshRefs_run (c : CacheOnly.MemState) (es : List CacheOnly.MEv)
    (h : CacheOnly.FreshRefs c) : CacheOnly.FreshRefs (CacheOnly.runMem c es) := by
  induction es generalizing c with
  | nil => exact h
  | cons e es ih => exact ih _ (freshRefs_step c e h)

theorem solvedRef_getUserProgress (c : CacheOnly.MemState) (u1 u t : Int)
    (hf : CacheOnly.FreshRefs c) (h : CacheOnly.SolvedRef c u t) :
    CacheOnly.SolvedRef (CacheOnly.getUserProgress c u1).2 u t := by
  obtain ⟨r, hcr, hlk⟩ := h
  cases hcu : c.cacheRef u1 with
  | some r1 =>
      simp only [CacheOnly.getUserProgress, hcu]
      exact ⟨r, hcr, hlk⟩
  | none =>
      have hu : u ≠ u1 := by
        intro hEq
        rw [hEq, hcu] at hcr
        exact Option.noConfusion hcr
      have hrlt : r < c.nextRef := hf u r hcr
      refine ⟨r, ?_, ?_⟩
      · simp only [CacheOnly.getUserProgress, hcu]
        rw [if_neg hu]
        exact hcr
      · simp only [CacheOnly.getUserProgress, hcu]
        rw [if_neg (by omega : ¬ r = c.nextRef)]
        exact hlk

theorem cacheOnly_save_cacheRef_at (c : CacheOnly.MemState) (u1 t1 : Int)
    (sv : Bool) (v : Int) :
    (CacheOnly.saveUserProgress c u1 t1 sv).cacheRef v
      = if v = u1 then some (CacheOnly.getUserProgress c u1).1
        else (CacheOnly.getUserProgress c u1).2.cacheRef v := rfl

theorem cacheOnly_save_heap_at (c : CacheOnly.MemState) (u1 t1 : Int)
    (sv : Bool) (r2 : Nat) :
    (CacheOnly.saveUserProgress c u1 t1 sv).heap r2
      = if r2 = (CacheOnly.getUserProgress c u1).1
        then mapInsert
          ((CacheOnly.getUserProgress c u1).2.heap (CacheOnly.getUserProgress c u1).1)
          t1 sv
        else (CacheOnly.getUserProgress c u1).2.heap r2 := rfl

theorem solvedRef_step (c : CacheOnly.MemState) (e : CacheOnly.MEv) (u t : Int)
    (hf : CacheOnly.FreshRefs c) (h : CacheOnly.SolvedRef c u t) :
    CacheOnly.SolvedRef (CacheOnly.stepMem c e) u t := by
  cases e with
  | read u1 => exact solvedRef_getUserProgress c u1 u t hf h
  | solve u1 t1 =>
      obtain ⟨r, hcr, hlk⟩ := solvedRef_getUserProgress c u1 u t hf h
      have hg1 : (CacheOnly.getUserProgress c u1).2.cacheRef u1
          = some (CacheOnly.getUserProgress c u1).1 := cacheOnly_get_cacheRef c u1
      show CacheOnly.SolvedRef (CacheOnly.saveUserProgress c u1 t1 true) u t
      by_cases hu : u = u1
      · -- the save re-points u at the same object it mutates, and the
        -- mutation only inserts (t1, true)
        have hrr : r = (CacheOnly.getUserProgress c u1).1 :=
          Option.some.inj ((hu ▸ hcr).symm.trans hg1)
        refine ⟨(CacheOnly.getUserProgress c u1).1, ?_, ?_⟩
        · rw [cacheOnly_save_cacheRef_at, if_pos hu]
        · rw [cacheOnly_save_heap_at, if_pos rfl, mapLookup_mapInsert]
          by_cases ht : t = t1
          · simp [ht]
          · rw [if_neg ht, ← hrr]
            exact hlk
      · refine ⟨r, ?_, ?_⟩
        · rw [cacheOnly_save_cacheRef_at, if_neg hu]
          exact hcr
        · rw [cacheOnly_save_heap_at]
          by_cases hr1 : r = (CacheOnly.getUserProgress c u1).1
          · rw [if_pos hr1, mapLookup_mapInsert]
            by_cases ht : t = t1
            · simp [ht]
            · rw [if_neg ht, ← hr1]
              exact hlk
          · rw [if_neg hr1]
            exact hlk

theorem solvedRef_run (c : CacheOnly.MemState) (es : List CacheOnly.MEv) (u t : Int)
    (hf : CacheOnly.FreshRefs c) (h : CacheOnly.SolvedRef c u t) :
    CacheOnly.SolvedRef (CacheOnly.runMem c es) u t := by
  induction es generalizing c with
  | nil => exact h
  | cons e es ih =>
      exact ih _ (freshRefs_step c e hf) (solvedRef_step c e u t hf h)

theorem solvedRef_reports (c : CacheOnly.MemState) (u t : Int)
    (h : CacheOnly.SolvedRef c u t) :
    mapLookup ((CacheOnly.getUserProgress c u).2.heap (CacheOnly.getUserProgress c u).1)
        t = some true := by
  obtain ⟨r, hcr, hlk⟩ := h
  simp only [CacheOnly.getUserProgress, hcr]
  exact hlk

theorem solvedRef_of_report (c : CacheOnly.MemState) (u t : Int)
    (h : mapLookup ((CacheOnly.getUserProgress c u).2.heap
          (CacheOnly.getUserProgress c u).1) t = some true) :
    CacheOnly.SolvedRef (CacheOnly.getUserProgress c u).2 u t := by
  cases hcu : c.cacheRef u with
  | some r =>
      simp only [CacheOnly.getUserProgress, hcu] at h ⊢
      exact ⟨r, hcu, h⟩
  | none =>
      simp only [CacheOnly.getUserProgress, hcu] at h
      simp [mapLookup] at h

/-- C2: no regression within a process lifetime, for both
implementations.  Reconciled mode (`main.go`): starting on any durable
table, if after events `es1` (any interleaving of progress reads and
successful-answer writes, with arbitrary store failures)
`getUserProgress u` reports task `t` solved, then after any further
events `es2` every successful read still reports `t` solved.
Cache-only variant: starting from the empty process state, once the
snapshot returned by `getUserProgress u` has `t` solved, the snapshot
returned after any further reads and writes still has `t` solved. -/
theorem C2_no_regression :
    (∀ (db0 : Int → ProgressMap) (es1 es2 : List Ev) (u t : Int) (fl fl1 : Bool)
        (m m1 : ProgressMap),
      (getUserProgress (run (initState db0) es1) u fl).1 = some m →
      mapLookup m t = some true →
      (getUserProgress (run (run (initState db0) es1) es2) u fl1).1 = some m1 →
      mapLookup m1 t = some true) ∧
    (∀ (es1 es2 : List CacheOnly.MEv) (u t : Int),
      mapLookup
          ((CacheOnly.getUserProgress (CacheOnly.runMem CacheOnly.memInit es1) u).2.heap
            (CacheOnly.getUserProgress (CacheOnly.runMem CacheOnly.memInit es1) u).1)
          t = some true →
      mapLookup
          ((CacheOnly.getUserProgress
              (CacheOnly.runMem
                (CacheOnly.getUserProgress (CacheOnly.runMem CacheOnly.memInit es1) u).2
                es2) u).2.heap
            (CacheOnly.getUserProgress
              (CacheOnly.runMem
                (CacheOnly.getUserProgress (CacheOnly.runMem CacheOnly.memInit es1) u).2
                es2) u).1)
          t = some true) := by
  constructor
  · intro db0 es1 es2 u t fl fl1 m m1 h1 h2 h3
    have hcoh1 : Coherent (run (initState db0) es1) :=
      coherent_run _ _ (coherent_initState db0)
    have hm : m = (run (initState db0) es1).db u :=
      getUserProgress_result _ u fl m hcoh1 h1
    have hdb1 : mapLookup ((run (initState db0) es1).db u) t = some true := hm ▸ h2
    have hdb2 : mapLookup ((run (run (initState db0) es1) es2).db u) t = some true :=
      dbLookup_mono_run _ es2 u t hdb1
    have hcoh2 : Coherent (run (run (initState db0) es1) es2) :=
      coherent_run _ _ hcoh1
    have hm1 : m1 = (run (run (initState db0) es1) es2).db u :=
      getUserProgress_result _ u fl1 m1 hcoh2 h3
    rw [hm1]
    exact hdb2
  · intro es1 es2 u t h
    have hf1 : CacheOnly.FreshRefs (CacheOnly.runMem CacheOnly.memInit es1) :=
      freshRefs_run _ _ freshRefs_memInit
    have h2 : CacheOnly.SolvedRef
        (CacheOnly.getUserProgress (CacheOnly.runMem CacheOnly.memInit es1) u).2 u t :=
      solvedRef_of_report _ _ _ h
    have hf2 : CacheOnly.FreshRefs
        (CacheOnly.getUserProgress (CacheOnly.runMem CacheOnly.memInit es1) u).2 :=
      freshRefs_getUserProgress _ _ hf1
    exact solvedRef_reports _ _ _ (solvedRef_run _ es2 u t hf2 h2)

/-- Witness for C2: in each variant, user 7 solves task 1, the read
reports it solved, and after a further read and a solve of task 2 it
is still reported solved. -/
theorem C2_no_regression_witness :
    mapLookup [(1, true), (2, true)] 1 = some true ∧
    mapLookup
        ((CacheOnly.getUserProgress
            (CacheOnly.runMem
              (CacheOnly.getUserProgress
                (CacheOnly.runMem CacheOnly.memInit [CacheOnly.MEv.solve 7 1]) 7).2
              [CacheOnly.MEv.read 7, CacheOnly.MEv.solve 7 2]) 7).2.heap
          (CacheOnly.getUserProgress
            (CacheOnly.runMem
              (CacheOnly.getUserProgress
                (CacheOnly.runMem CacheOnly.memInit [CacheOnly.MEv.solve 7 1]) 7).2
              [CacheOnly.MEv.read 7, CacheOnly.MEv.solve 7 2]) 7).1)
        1 = some true :=
  ⟨C2_no_regression.1 (fun _ => []) [Ev.solve 7 1 false]
      [Ev.read 7 false, Ev.solve 7 2 false] 7 1 false false
      [(1, true)] [(1, true), (2, true)] (by decide) (by decide) (by decide),
    C2_no_regression.2 [CacheOnly.MEv.solve 7 1]
      [CacheOnly.MEv.read 7, CacheOnly.MEv.solve 7 2] 7 1 (by decide)⟩

/-! ### Claim C4 -/

theorem memState_ext (a b : CacheOnly.MemState) (h1 : a.heap = b.heap)
    (h2 : a.nextRef = b.nextRef) (h3 : a.cacheRef = b.cacheRef) : a = b := by
  cases a; cases b; cases h1; cases h2; cases h3; rfl

theorem cacheOnly_save_cacheRef (c : CacheOnly.MemState) (u t : Int) (sv : Bool) :
    (CacheOnly.saveUserProgress c u t sv).cacheRef u
      = some (CacheOnly.getUserProgress c u).1 := by
  cases hc : c.cacheRef u <;>
    simp [CacheOnly.saveUserProgress, CacheOnly.getUserProgress, hc]

theorem cacheOnly_save_idem (c : CacheOnly.MemState) (u t : Int) :
    CacheOnly.saveUserProgress (CacheOnly.saveUserProgress c u t true) u t true
      = CacheOnly.saveUserProgress c u t true := by
  cases hc : c.cacheRef u with
  | some r0 =>
      apply memState_ext
      · funext r2
        by_cases hr : r2 = r0 <;>
          simp [CacheOnly.saveUserProgress, CacheOnly.getUserProgress, hc, hr,
            mapInsert_mapInsert]
      · simp [CacheOnly.saveUserProgress, CacheOnly.getUserProgress, hc]
      · funext v
        by_cases hv : v = u <;>
          simp [CacheOnly.saveUserProgress, CacheOnly.getUserProgress, hc, hv]
  | none =>
      apply memState_ext
      · funext r2
        by_cases hr : r2 = c.nextRef <;>
          simp [CacheOnly.saveUserProgress, CacheOnly.getUserProgress, hc, hr,
            mapInsert_mapInsert]
      · simp [CacheOnly.saveUserProgress, CacheOnly.getUserProgress, hc]
      · funext v
        by_cases hv : v = u <;>
          simp [CacheOnly.saveUserProgress, CacheOnly.getUserProgress, hc, hv]

/-- C4: recording a solve twice (store healthy) equals recording it
once.  In reconciled mode: the second call succeeds, the snapshot
observed through `getUserProgress` is the same after one or two calls,
the flag reads `true`, and the snapshot has no duplicate entries.  In
the cache-only variant the second call leaves the entire state
unchanged (and its `saveUserProgress` never fails by construction). -/
theorem C4_idempotent_record (s : RState) (u t : Int) (hnd : NodupKeys (s.db u)) :
    (saveUserProgress (saveUserProgress s u t true false).2 u t true false).1 = true ∧
    (getUserProgress
        (saveUserProgress (saveUserProgress s u t true false).2 u t true false).2
        u false).1
      = (getUserProgress (saveUserProgress s u t true false).2 u false).1 ∧
    (∀ m, (getUserProgress (saveUserProgress s u t true false).2 u false).1 = some m →
      mapLookup m t = some true ∧ NodupKeys m) ∧
    (∀ c : CacheOnly.MemState,
      CacheOnly.saveUserProgress (CacheOnly.saveUserProgress c u t true) u t true
        = CacheOnly.saveUserProgress c u t true) := by
  have h1c : (saveUserProgress s u t true false).2.cache u = none := by
    simp [saveUserProgress]
  have h2c : (saveUserProgress (saveUserProgress s u t true false).2 u t true
      false).2.cache u = none := by
    simp [saveUserProgress]
  have h1db : (saveUserProgress s u t true false).2.db u
      = mapInsert (s.db u) t true := by
    simp [saveUserProgress, dbUpsert]
  have h2db : (saveUserProgress (saveUserProgress s u t true false).2 u t true
        false).2.db u
      = mapInsert (s.db u) t true := by
    simp [saveUserProgress, dbUpsert, mapInsert_mapInsert]
  refine ⟨rfl, ?_, ?_, fun c => cacheOnly_save_idem c u t⟩
  · simp only [getUserProgress, h1c, h2c, Bool.false_eq_true, if_false, h1db, h2db]
  · intro m hm
    simp only [getUserProgress, h1c, Bool.false_eq_true, if_false] at hm
    have hmm := Option.some.inj hm
    rw [← hmm, h1db]
    refine ⟨by rw [mapLookup_mapInsert]; simp, nodupKeys_mapInsert _ _ _ hnd⟩

/-- Witness for C4: from an empty table, after recording task 1 solved
for user 7 the observed snapshot is `[(1, true)]`: flag true and no
duplicates. -/
theorem C4_idempotent_record_witness :
    mapLookup [(1, true)] 1 = some true ∧ NodupKeys [(1, true)] :=
  (C4_idempotent_record (initState fun _ => []) 7 1 (by decide)).2.2.1
    [(1, true)] (by decide)

/-! ### Claim C6 -/

/-- C6 fails on the code: with an empty cache and the store read
failing, `getNextTask` swallows the error and returns `nil`, so
`handleTaskCommand` sends the all-tasks-solved congratulation — even
though the user's durable progress is empty and `nextTask` on the
empty snapshot still has a task to offer. -/
theorem C6_store_failure_sends_completion :
    (handleTaskCommand (initState fun _ => []) 7 true).1
        = Outbound.text 7 "Поздравляем! Вы решили все задачи 🎉" ∧
    nextTask [] ≠ none := by
  exact ⟨rfl, by decide⟩

/-! ### Claim C7 -/

/-- C7 is false as stated: a failing `saveUserProgress` call does
mutate the cache — `progressCache.Delete(userID)` runs regardless of
the write error, so the user's populated cache entry is deleted. -/
theorem C7_counterexample :
    (run (initState fun u => if u = 7 then [(1, true)] else []) [Ev.read 7 false]).cache 7
        = some [(1, true)] ∧
    (saveUserProgress
        (run (initState fun u => if u = 7 then [(1, true)] else []) [Ev.read 7 false])
        7 2 true true).2.cache 7 = none := by
  constructor <;> rfl

/-- C7 (amended): when the durable write fails, `saveUserProgress`
reports failure, leaves the durable table unchanged, stores or updates
no cache entry and touches no other user's entry; its one cache
mutation is deleting (invalidating) the calling user's entry, so the
unconfirmed change is never visible. -/
theorem C7_failed_write_frame (s : RState) (u t : Int) (sv : Bool) :
    (saveUserProgress s u t sv true).1 = false ∧
    (saveUserProgress s u t sv true).2.db = s.db ∧
    (saveUserProgress s u t sv true).2.cache u = none ∧
    ∀ v, v ≠ u → (saveUserProgress s u t sv true).2.cache v = s.cache v := by
  refine ⟨rfl, rfl, by simp [saveUserProgress], fun v hv => ?_⟩
  simp [saveUserProgress, hv]

/-- Witness for C7 (amended): the failing write for user 7 leaves
user 8's (empty) cache entry untouched. -/
theorem C7_failed_write_frame_witness :
    (saveUserProgress (initState fun _ => []) 7 1 true true).2.cache 8 = none := by
  have h := (C7_failed_write_frame (initState fun _ => []) 7 1 true).2.2.2 8 (by decide)
  simpa [initState] using h

/-! ### Claim C8 -/

/-- C8 is false for the cache-only variant: `getUserProgress` hands
out the live cached map object, and a later
`saveUserProgress(U, T, true)` mutates that same object in place — the
snapshot the caller holds changes from `[]` to `[(1, true)]`. -/
theorem C8_counterexample :
    (CacheOnly.getUserProgress CacheOnly.memInit 7).2.heap
        (CacheOnly.getUserProgress CacheOnly.memInit 7).1 = [] ∧
    (CacheOnly.saveUserProgress
        (CacheOnly.getUserProgress CacheOnly.memInit 7).2 7 1 true).heap
        (CacheOnly.getUserProgress CacheOnly.memInit 7).1 = [(1, true)] := by
  constructor <;> rfl

/-- C8 (amended): the claim holds for `main.go` (reconciled mode): a
map object handed out by `getUserProgress` is never written again —
`saveUserProgress` only writes the table and drops the cache
reference, leaving every map object in the heap unchanged, so any
previously obtained snapshot is unaffected. -/
theorem C8_snapshot_immutable_reconciled (s : RefModel.DRefState) (u : Int)
    (fl : Bool) (r : Nat) (s1 : RefModel.DRefState)
    (h : RefModel.getUserProgress s u fl = (some r, s1))
    (u1 t1 : Int) (sv fl1 : Bool) :
    (RefModel.saveUserProgress s1 u1 t1 sv fl1).2.heap r = s1.heap r := rfl

/-- Witness for C8 (amended): a freshly loaded snapshot of user 7 is
unchanged by a subsequent successful `saveUserProgress` for user 7. -/
theorem C8_snapshot_immutable_reconciled_witness :
    (RefModel.saveUserProgress
        (RefModel.getUserProgress
          (RefModel.DRefState.mk (fun _ => [(1, true)]) (fun _ => []) 0 (fun _ => none))
          7 false).2
        7 2 true false).2.heap 0
      = (RefModel.getUserProgress
          (RefModel.DRefState.mk (fun _ => [(1, true)]) (fun _ => []) 0 (fun _ => none))
          7 false).2.heap 0 :=
  C8_snapshot_immutable_reconciled
    (RefModel.DRefState.mk (fun _ => [(1, true)]) (fun _ => []) 0 (fun _ => none))
    7 false 0 _ rfl 7 2 true false

/-! ### Claim C10: decimal rendering and parsing lemmas -/

theorem digitVal_decDigitChar (d : Nat) (h : d < 10) :
    digitVal (decDigitChar d) = some d := by
  interval_cases d <;> decide

theorem decDigitChar_ne (d : Nat) (h : d < 10) :
    decDigitChar d ≠ ':' ∧ decDigitChar d ≠ '-' ∧ decDigitChar d ≠ '+' := by
  interval_cases d <;> exact ⟨by decide, by decide, by decide⟩

theorem natDigitsAux_lt10 : ∀ fuel n d, d ∈ natDigitsAux fuel n → d < 10 := by
  intro fuel
  induction fuel with
  | zero => intro n d h; simp [natDigitsAux] at h
  | succ f ih =>
      intro n d h
      cases n with
      | zero => simp [natDigitsAux] at h
      | succ n1 =>
          simp only [natDigitsAux, List.mem_cons] at h
          rcases h with h | h
          · subst h; exact Nat.mod_lt _ (by omega)
          · exact ih _ _ h

theorem natDigitsAux_val : ∀ fuel n, n ≤ fuel → digitsVal (natDigitsAux fuel n) = n := by
  intro fuel
  induction fuel with
  | zero => intro n h; interval_cases n; rfl
  | succ f ih =>
      intro n h
      cases n with
      | zero => rfl
      | succ n1 =>
          have hdiv : (n1 + 1) / 10 ≤ f := by
            have hlt : (n1 + 1) / 10 < n1 + 1 := Nat.div_lt_self (by omega) (by omega)
            omega
          simp only [natDigitsAux, digitsVal]
          rw [ih _ hdiv]
          omega

theorem parseDigitsAux_digits : ∀ (ds : List Nat) (acc : Nat),
    (∀ d ∈ ds, d < 10) →
    parseDigitsAux (ds.map decDigitChar) acc
      = some (ds.foldl (fun a d => a * 10 + d) acc) := by
  intro ds
  induction ds with
  | nil => intro acc h; rfl
  | cons d rest ih =>
      intro acc h
      have hd : d < 10 := h d (by simp)
      simp only [List.map_cons, parseDigitsAux, digitVal_decDigitChar d hd,
        List.foldl_cons]
      exact ih _ (fun x hx => h x (by simp [hx]))

theorem foldl_reverse_digits : ∀ (ds : List Nat) (acc : Nat),
    ds.reverse.foldl (fun a d => a * 10 + d) acc
      = acc * 10 ^ ds.length + digitsVal ds := by
  intro ds
  induction ds with
  | nil => intro acc; simp [digitsVal]
  | cons d rest ih =>
      intro acc
      simp only [List.reverse_cons, List.foldl_append, ih, List.foldl_cons,
        List.foldl_nil, digitsVal, List.length_cons]
      ring

theorem parseDigits_renderNat (n : Nat) : parseDigits (renderNat n) = some n := by
  by_cases h0 : n = 0
  · subst h0; rfl
  · have hne : natDigitsAux n n ≠ [] := by
      cases n with
      | zero => exact absurd rfl h0
      | succ n1 => simp [natDigitsAux]
    have hmapne : renderNat n ≠ [] := by
      unfold renderNat
      rw [if_neg h0]
      simpa using hne
    obtain ⟨c, cs, hcs⟩ := List.exists_cons_of_ne_nil hmapne
    rw [hcs]
    show parseDigitsAux (c :: cs) 0 = some n
    rw [← hcs]
    unfold renderNat
    rw [if_neg h0]
    rw [parseDigitsAux_digits _ 0
      (fun d hd => natDigitsAux_lt10 n n d (List.mem_reverse.mp hd))]
    rw [foldl_reverse_digits, natDigitsAux_val n n le_rfl]
    simp

theorem renderNat_mem (n : Nat) (c : Char) (h : c ∈ renderNat n) :
    ∃ d, d < 10 ∧ c = decDigitChar d := by
  unfold renderNat at h
  rcases List.mem_map.mp h with ⟨d, hd, rfl⟩
  refine ⟨d, ?_, rfl⟩
  by_cases h0 : n = 0
  · rw [if_pos h0] at hd
    simp at hd
    omega
  · rw [if_neg h0] at hd
    exact natDigitsAux_lt10 n n d (List.mem_reverse.mp hd)

theorem renderInt_no_colon (n : Int) : ∀ c ∈ renderInt n, c ≠ ':' := by
  intro c h
  unfold renderInt at h
  by_cases hn : n < 0
  · rw [if_pos hn] at h
    rcases List.mem_cons.mp h with rfl | h1
    · decide
    · obtain ⟨d, hd, rfl⟩ := renderNat_mem _ _ h1
      exact (decDigitChar_ne d hd).1
  · rw [if_neg hn] at h
    obtain ⟨d, hd, rfl⟩ := renderNat_mem _ _ h
    exact (decDigitChar_ne d hd).1

theorem splitFirstColon_append (xs ys : List Char) (h : ∀ c ∈ xs, c ≠ ':') :
    splitFirstColon (xs ++ ':' :: ys) = some (xs, ys) := by
  induction xs with
  | nil => simp [splitFirstColon]
  | cons c cs ih =>
      have hc : c ≠ ':' := h c (by simp)
      rw [List.cons_append]
      show (if c = ':' then some ([], cs ++ ':' :: ys)
        else (splitFirstColon (cs ++ ':' :: ys)).map (fun p => (c :: p.1, p.2)))
          = some (c :: cs, ys)
      rw [if_neg hc, ih (fun x hx => h x (by simp [hx]))]
      rfl

theorem renderNat_ne_nil (n : Nat) : renderNat n ≠ [] := by
  unfold renderNat
  by_cases h0 : n = 0
  · rw [if_pos h0]; simp
  · rw [if_neg h0]
    cases n with
    | zero => exact absurd rfl h0
    | succ n1 => simp [natDigitsAux]

theorem atoi_renderInt (n : Int) (h1 : -(2 ^ 63) ≤ n) (h2 : n ≤ 2 ^ 63 - 1) :
    atoi (String.mk (renderInt n)) = some n := by
  by_cases hn : n < 0
  · have hdata : (String.mk (renderInt n)).data = '-' :: renderNat n.natAbs := by
      simp [renderInt, if_pos hn]
    unfold atoi
    rw [hdata]
    simp only [atoiChars, reduceIte, parseDigits_renderNat]
    have hb : (n.natAbs : Int) ≤ 2 ^ 63 := by omega
    show (if (n.natAbs : Int) ≤ 2 ^ 63 then some (-(n.natAbs : Int)) else none) = some n
    rw [if_pos hb]
    congr 1
    omega
  · obtain ⟨c, cs, hcs⟩ := List.exists_cons_of_ne_nil (renderNat_ne_nil n.toNat)
    obtain ⟨d, hd, hcd⟩ := renderNat_mem n.toNat c (by rw [hcs]; simp)
    have hdata : (String.mk (renderInt n)).data = c :: cs := by
      simp [renderInt, if_neg hn, hcs]
    unfold atoi
    rw [hdata]
    simp only [atoiChars]
    rw [if_neg (hcd ▸ (decDigitChar_ne d hd).2.1),
      if_neg (hcd ▸ (decDigitChar_ne d hd).2.2), ← hcs, parseDigits_renderNat]
    have hb : (n.toNat : Int) ≤ 2 ^ 63 - 1 := by omega
    show (if (n.toNat : Int) ≤ 2 ^ 63 - 1 then some ((n.toNat : Int)) else none) = some n
    rw [if_pos hb]
    congr 1
    omega

/-- C10: round-trip of the choice-selection token: for every int64
task id `n` and every option string `s` (even one containing the `':'`
separator), building the callback data as `sendTask` does and parsing
it as `handleCallbackQuery` does recovers exactly `n` and `s`. -/
theorem C10_callback_roundtrip (n : Int) (s : String)
    (h1 : -(2 ^ 63) ≤ n) (h2 : n ≤ 2 ^ 63 - 1) :
    parseCallback (encodeCallback n s) = some (n, s) := by
  unfold parseCallback splitN2 encodeCallback
  rw [show (String.mk (renderInt n ++ ':' :: s.data)).data
      = renderInt n ++ ':' :: s.data from rfl]
  rw [splitFirstColon_append (renderInt n) s.data (renderInt_no_colon n)]
  show (match atoi (String.mk (renderInt n)) with
    | none => none
    | some taskID => some (taskID, String.mk s.data)) = some (n, s)
  rw [atoi_renderInt n h1 h2]

/-- Witness for C10: the token for task id 3 with the colon-bearing
option text `"a:b"` round-trips. -/
theorem C10_callback_roundtrip_witness :
    parseCallback (encodeCallback 3 "a:b") = some (3, "a:b") :=
  C10_callback_roundtrip 3 "a:b" (by decide) (by decide)

/-! ### Claim C9 -/

theorem solvedCount_eq_filter_length (p : ProgressMap) :
    solvedCount p = (p.filter (fun kv => kv.2)).length := by
  have haux : ∀ (l : ProgressMap) (acc : Nat),
      l.foldl (fun a kv => if kv.2 then a + 1 else a) acc
        = acc + (l.filter (fun kv => kv.2)).length := by
    intro l
    induction l with
    | nil => intro acc; simp
    | cons kv rest ih =>
        intro acc
        cases hv : kv.2
        · simp [List.foldl_cons, hv, ih, List.filter_cons]
        · simp [List.foldl_cons, hv, ih, List.filter_cons]
          omega
  simpa [solvedCount] using haux p 0

set_option maxRecDepth 8000 in
theorem percentOf_exact (n : Nat) (h : n ≤ 5) :
    percentOf n 5 = DRat.mk (20 * (n : Int)) 1 := by
  interval_cases n <;> decide

set_option maxRecDepth 8000 in
theorem fmt1f_percentOf (n : Nat) (h : n ≤ 5) :
    fmt1f (percentOf n 5) = toString (20 * n) ++ ".0" := by
  interval_cases n <;> decide

set_option maxRecDepth 8000 in
/-- C9: the `/progress` report: the solved count is the number of
`solved = true` entries of the snapshot, the total is the number of
catalog tasks, the percentage computed through binary64 arithmetic is
exactly `solved/total*100`, and it is rendered with exactly one
decimal place (`"….0"`, the value being an exact multiple of 20); with
one of five tasks solved the message shows `1/5` and `20.0%`. -/
theorem C9_progress_report (p : ProgressMap) (h : solvedCount p ≤ 5) :
    solvedCount p = (p.filter (fun kv => kv.2)).length ∧
    toRat (percentOf (solvedCount p) getTasks.length)
      = (solvedCount p : ℚ) / (getTasks.length : ℚ) * 100 ∧
    showProgressText p
      = "Ваш прогресс: 📊\n\nРешено задач: " ++ toString (solvedCount p) ++ "/"
          ++ toString getTasks.length ++ "\nПрогресс: "
          ++ (toString (20 * solvedCount p) ++ ".0") ++ "%" ∧
    showProgressText (mapInsert [] 1 true)
      = "Ваш прогресс: 📊\n\nРешено задач: 1/5\nПрогресс: 20.0%" := by
  have hlen : getTasks.length = 5 := rfl
  refine ⟨solvedCount_eq_filter_length p, ?_, ?_, by decide⟩
  · rw [hlen, percentOf_exact (solvedCount p) h]
    unfold toRat
    push_cast
    ring
  · unfold showProgressText
    rw [hlen, fmt1f_percentOf (solvedCount p) h]

/-- Witness for C9: with exactly one solved entry the percentage
pipeline yields exactly `1/5·100`. -/
theorem C9_progress_report_witness :
    toRat (percentOf (solvedCount [(1, true)]) getTasks.length)
      = (solvedCount [(1, true)] : ℚ) / (getTasks.length : ℚ) * 100 :=
  (C9_progress_report [(1, true)] (by decide)).2.1

end Bot
